import Mathlib

/-
Verification of the pnad field-resolution and caching engine.

Shallow embedding of the core of the repository:
  * pnad/utils.py          select_by_year
  * pnad/cache.py          Cache.save / Cache.load / CacheError
  * pnad/transformer/base.py
        Transformer.__call__, Transformer._load_cached,
        DataFrameProxy (__getattr__, __getitem__, _fallback),
        Field.transform, IncomeField.transform, IncomeField.remove_missing,
        FunctionField.transform, sum_na

Modelling conventions:
  * A cell of a numeric column is an Option Int; none models the float NaN
    missing marker (and the python value None broadcast by pandas).
  * A pandas DataFrame is an insertion-ordered association list of named
    columns; assigning an existing column replaces it in place, assigning a
    new one appends it at the end, exactly as pandas keeps column order.
  * Assigning a scalar (None, or the year) broadcasts it to the current row
    count of the frame.  Row-length mismatches, which pandas rejects at
    runtime, are outside the model: the spec fixes the row count per session.
  * Exceptions are values of an error type threaded through Except; the
    state reached before an exception propagates is kept alongside it.
  * The raw-source collaborator (the loader closure) is a fixed table; each
    invocation returns it and bumps a call counter kept in the session.
  * The numpy save/load round trip of Cache is the identity on columns; the
    durable store is keyed by the (year, field) pair as the file name is.
  * hasattr(transformer, item) is modelled as presence of a field
    descriptor for item: the canonical field catalog of the transformer.
-/

instance {e a : Type} [DecidableEq e] [DecidableEq a] : DecidableEq (Except e a) := fun x y =>
  match x, y with
  | .ok v, .ok w =>
      if h : v = w then .isTrue (by rw [h]) else .isFalse (by intro he; cases he; exact h rfl)
  | .error v, .error w =>
      if h : v = w then .isTrue (by rw [h]) else .isFalse (by intro he; cases he; exact h rfl)
  | .ok _, .error _ => .isFalse (by intro h; cases h)
  | .error _, .ok _ => .isFalse (by intro h; cases h)

namespace Pnad

abbrev Column := List (Option Int)

abbrev Table := List (String × Column)

/-- Column names of a frame, in pandas column order. -/
def Table.columns (t : Table) : List String := t.map (fun p => p.1)

/-- Lookup of a named column: first binding wins, as in a pandas frame
(whose names are unique by construction of the operations below). -/
def Table.getCol? (t : Table) (name : String) : Option Column :=
  (t.find? (fun p => p.1 = name)).map (fun p => p.2)

/-- Column assignment df[name] = c: replace in place if the name exists,
append at the end otherwise. -/
def Table.setCol : Table → String → Column → Table
  | [], name, c => [(name, c)]
  | (m, c0) :: rest, name, c =>
      if m = name then (name, c) :: rest
      else (m, c0) :: Table.setCol rest name c

/-- Row count of a frame: the length of its first column (pandas keeps all
columns equally long; an empty frame has zero rows). -/
def Table.nrows : Table → Nat
  | [] => 0
  | (_, c) :: _ => c.length

/-- Errors propagating through the engine.  keyError and attrError model the
python KeyError and AttributeError raised by frame lookups; noRange models
the ValueError raised by select_by_year; typeErr marks the degenerate path
where a raw-column lookup hands back a scalar python None; noFuel is the
out-of-fuel marker of the bounded evaluator. -/
inductive Err where
  | keyError (item : String)
  | attrError (item : String)
  | noRange (year : Int)
  | typeErr (item : String)
  | noFuel
deriving DecidableEq, Repr

/-
YearSpec resolver: pnad/utils.py, select_by_year.
-/

/-- Outcome stored in a year specification: a raw column identifier, a
literal numeric constant, or None meaning the field is unavailable. -/
inductive Outcome where
  | col (name : String)
  | lit (v : Int)
  | unavailable
deriving DecidableEq, Repr

/-- A key of the specification dict or list: either a single year (where a
bare None or Ellipsis key selects the full open range) or a pair of bounds.
A bound of none models Ellipsis or None, normalized to minus or plus
infinity by select_by_year. -/
inductive YearKey where
  | single (y : Option Int)
  | range (a b : Option Int)
deriving DecidableEq, Repr

/-- A normalized interval: lower bound (none is minus infinity), upper bound
(none is plus infinity), outcome. -/
abbrev NormItem := Option Int × Option Int × Outcome

/-- Normalization of one item, as in the first loop of select_by_year:
a single key duplicates into both bounds, a pair keeps its bounds. -/
def normItem : YearKey × Outcome → NormItem
  | (.single y, v) => (y, y, v)
  | (.range a b, v) => (a, b, v)

/-- Order on lower bounds, where none stands for minus infinity. -/
def lowerLE : Option Int → Option Int → Bool
  | none, _ => true
  | some _, none => false
  | some x, some y => x ≤ y

/-- Order on upper bounds, where none stands for plus infinity. -/
def upperLE : Option Int → Option Int → Bool
  | _, none => true
  | none, some _ => false
  | some x, some y => x ≤ y

/-- Lexicographic order on normalized intervals, by lower then upper bound:
the order in which python sorts the normalized (a, b, value) triples. -/
def specLE (p q : NormItem) : Bool :=
  if p.1 = q.1 then upperLE p.2.1 q.2.1 else lowerLE p.1 q.1

/-- Membership test a <= year <= b of the final loop of select_by_year. -/
def containsB (year : Int) (p : NormItem) : Bool :=
  lowerLE p.1 (some year) && upperLE (some year) p.2.1

/-- The sort relation as a proposition, for the stable sort below. -/
def NormLE (p q : NormItem) : Prop := specLE p q = true

instance : DecidableRel NormLE := fun p q => Bool.decEq (specLE p q) true

/-- Normalized and sorted specification list (python list.sort is a stable
sort of the normalized triples). -/
def sortSpec (D : List (YearKey × Outcome)) : List NormItem :=
  List.insertionSort NormLE (D.map normItem)

/-- select_by_year of pnad/utils.py: normalize, sort, return the outcome of
the first interval containing the year, or raise ValueError (noRange). -/
def select_by_year (year : Int) (D : List (YearKey × Outcome)) : Except Err Outcome :=
  match (sortSpec D).find? (containsB year) with
  | some p => .ok p.2.2
  | none => .error (.noRange year)

/-
Sentinel cleaning: Field.transform tail and IncomeField.remove_missing.
-/

/-- Single-sentinel cleaning np.where(col == missing, nan, col), applied by
Field.transform when the declared missing sentinel is not None.  A cell that
is already missing never compares equal to the sentinel. -/
def clean (missing : Option Int) (col : Column) : Column :=
  match missing with
  | none => col
  | some m => col.map (fun x => if x = some m then none else x)

/-- The sentinel list of IncomeField.remove_missing. -/
def missing_sentinels : List Int :=
  [-1, 999999, 9999999, 99999999, 999999999, 999999999999]

/-- One pass lst[lst == value] = nan of the remove_missing loop. -/
def mask_value (lst : Column) (value : Int) : Column :=
  lst.map (fun x => if x = some value then none else x)

/-- IncomeField.remove_missing: every sentinel of the list is masked to the
missing marker, in order. -/
def remove_missing (lst : Column) : Column :=
  missing_sentinels.foldl mask_value lst

/-
Unit composition: sum_na of pnad/transformer/base.py.
-/

/-- One step isnull &= np.isnan(x) of the mask loop of sum_na. -/
def andMask (m : List Bool) (c : Column) : List Bool :=
  m.zipWith (fun b x => b && x.isNone) c

/-- One step res += np.where(np.isnan(x), 0, x) of the sum loop of sum_na. -/
def addNa (r : List Int) (c : Column) : List Int :=
  r.zipWith (fun x y => x + y.getD 0) c

/-- sum_na of pnad/transformer/base.py: sum all columns treating NaN as 0,
then make the rows in which every input is NaN missing again. -/
def sum_na (x0 : Column) (others : List Column) : Column :=
  let isnull := others.foldl andMask (x0.map Option.isNone)
  let res := others.foldl addNa (x0.map (fun x => x.getD 0))
  (res.zip isnull).map (fun p => if p.2 then none else some p.1)

/-
Persistent column cache: pnad/cache.py.
-/

/-- A durable cache key: the (year, canonical field name) pair encoded in
the cache file name. -/
abbrev Key := Int × String

/-- The durable store: one column blob per key. -/
abbrev Store := List (Key × Column)

/-- Read of one durable entry (np.load of the key file). -/
def Store.get? (st : Store) (k : Key) : Option Column :=
  (st.find? (fun p => p.1 = k)).map (fun p => p.2)

/-- Write of one durable entry (np.save): unconditional overwrite of an
existing file, creation otherwise. -/
def Store.put : Store → Key → Column → Store
  | [], k, c => [(k, c)]
  | (k0, c0) :: rest, k, c =>
      if k0 = k then (k, c) :: rest
      else (k0, c0) :: Store.put rest k c

/-- Cache.save: write every column of the frame under its (year, name) key. -/
def cacheSave (st : Store) (year : Int) (data : List (String × Column)) : Store :=
  data.foldl (fun acc p => Store.put acc (year, p.1) p.2) st

/-- Cache.load: read each requested field in order; the first absent field
raises CacheError carrying that field name; on success the resulting frame
holds exactly the requested columns in the requested order. -/
def cacheLoad (st : Store) (year : Int) : List String → Except String Table
  | [] => .ok []
  | c :: cs =>
      match Store.get? st (year, c) with
      | none => .error c
      | some v =>
          match cacheLoad st year cs with
          | .error e => .error e
          | .ok t => .ok ((c, v) :: t)

/-
Field descriptors and the transformer: pnad/transformer/base.py.
-/

/-- The spec argument of a Field: either a plain raw-column name or a
per-year dictionary handed to select_by_year. -/
inductive FieldSpec where
  | str (s : String)
  | byYear (D : List (YearKey × Outcome))

/-- A field descriptor of the catalog: Field (generic raw mapping with one
optional sentinel), IncomeField (raw mapping cleaned with the income
sentinel list, never absent), or FunctionField (reads the listed dependent
fields through the proxy, in order, then combines them purely; comb also
receives the survey year, as the python functions read self.year). -/
inductive Descr where
  | plain (spec : FieldSpec) (missing : Option Int)
  | income (spec : FieldSpec) (missing : Option Int)
  | func (deps : List String) (comb : Int → List (Option Column) → Except Err (Option Column))

/-- A transformer: the survey year, the requested field tuple, and the
declared descriptor catalog (hasattr plus getattr on the transformer). -/
structure Xformer where
  year : Int
  fields : List String
  descr : String → Option Descr

/-- One resolution session: the working table owned by the proxy, the
memoized raw-source handle, and the loader invocation counter. -/
structure Sess where
  data : Table
  raw : Option Table
  calls : Nat
deriving DecidableEq, Repr

/-- Result of a proxy access: a column, or the python value None (a field
whose descriptor produced no column). -/
abbrev PyVal := Option Column

mutual

/-- DataFrameProxy.__getattr__: return the column when the working table has
it, otherwise fall back with the original AttributeError. -/
def pGetAttr (X : Xformer) (L : Table) : Nat → String → Sess → Except Err PyVal × Sess
  | 0, _, s => (.error .noFuel, s)
  | fuel + 1, item, s =>
      match Table.getCol? s.data item with
      | some c => (.ok (some c), s)
      | none => pFallback X L fuel item (.attrError item) s

/-- DataFrameProxy.__getitem__: return the column when the working table has
it, otherwise fall back with the original KeyError. -/
def pGetItem (X : Xformer) (L : Table) : Nat → String → Sess → Except Err PyVal × Sess
  | 0, _, s => (.error .noFuel, s)
  | fuel + 1, item, s =>
      match Table.getCol? s.data item with
      | some c => (.ok (some c), s)
      | none => pFallback X L fuel item (.keyError item) s

/-- DataFrameProxy._fallback.  With a descriptor: evaluate it, store the
result into the working table (a python None broadcasts to an all-missing
column of the current row count) and hand the raw result back.  Without a
descriptor: acquire the raw source on first use (bumping the call counter),
look the item up there, store and return it, or re-raise the original
exception when the raw source lacks it too. -/
def pFallback (X : Xformer) (L : Table) : Nat → String → Err → Sess → Except Err PyVal × Sess
  | 0, _, _, s => (.error .noFuel, s)
  | fuel + 1, item, exc, s =>
      match X.descr item with
      | some d =>
          match evalDescr X L fuel d s with
          | (.error e, s1) => (.error e, s1)
          | (.ok v, s1) =>
              let col := match v with
                         | some c => c
                         | none => List.replicate (Table.nrows s1.data) none
              (.ok v, ⟨Table.setCol s1.data item col, s1.raw, s1.calls⟩)
      | none =>
          let s1 : Sess := match s.raw with
                           | some _ => s
                           | none => ⟨s.data, some L, s.calls + 1⟩
          match Table.getCol? (s1.raw.getD []) item with
          | some c => (.ok (some c), ⟨Table.setCol s1.data item c, s1.raw, s1.calls⟩)
          | none => (.error exc, s1)

/-- Descriptor evaluation fn(proxy).  Field: Field.transform.  IncomeField:
Field.transform, then an all-NaN column of the current row count when the
base returned None, else remove_missing.  FunctionField: resolve the
dependencies through the proxy and combine. -/
def evalDescr (X : Xformer) (L : Table) : Nat → Descr → Sess → Except Err PyVal × Sess
  | 0, _, s => (.error .noFuel, s)
  | fuel + 1, .plain spec m, s => fieldTransform X L fuel spec m s
  | fuel + 1, .income spec m, s =>
      match fieldTransform X L fuel spec m s with
      | (.error e, s1) => (.error e, s1)
      | (.ok none, s1) =>
          (.ok (some (List.replicate (Table.nrows s1.data) none)), s1)
      | (.ok (some c), s1) => (.ok (some (remove_missing c)), s1)
  | fuel + 1, .func deps comb, s =>
      match resolveDeps X L fuel deps s with
      | (.error e, s1) => (.error e, s1)
      | (.ok vals, s1) => (comb X.year vals, s1)

/-- Field.transform head: pick the raw column name.  A plain string spec
uses it directly; a per-year spec resolves through select_by_year, where a
ValueError propagates, a None outcome returns None (the field is absent for
this year), and a numeric literal broadcasts to a constant column of the
current row count, skipping sentinel cleaning. -/
def fieldTransform (X : Xformer) (L : Table) : Nat → FieldSpec → Option Int → Sess → Except Err PyVal × Sess
  | 0, _, _, s => (.error .noFuel, s)
  | fuel + 1, .str f, m, s => rawLookup X L fuel f m s
  | fuel + 1, .byYear D, m, s =>
      match select_by_year X.year D with
      | .error e => (.error e, s)
      | .ok .unavailable => (.ok none, s)
      | .ok (.lit v) =>
          (.ok (some (List.replicate (Table.nrows s.data) (some v))), s)
      | .ok (.col f) => rawLookup X L fuel f m s

/-- Field.transform tail: col = np.array(df[field]) through the proxy, where
a KeyError from the lookup is caught and yields None, then single-sentinel
cleaning.  The degenerate case of the lookup handing back a scalar python
None (a descriptor registered under a raw-column name that produced None)
leaves the numeric domain and is marked typeErr. -/
def rawLookup (X : Xformer) (L : Table) : Nat → String → Option Int → Sess → Except Err PyVal × Sess
  | 0, _, _, s => (.error .noFuel, s)
  | fuel + 1, f, m, s =>
      match pGetItem X L fuel f s with
      | (.error (.keyError _), s1) => (.ok none, s1)
      | (.error e, s1) => (.error e, s1)
      | (.ok none, s1) => (.error (.typeErr f), s1)
      | (.ok (some c), s1) => (.ok (some (clean m c)), s1)

/-- Dependency reads of a FunctionField body, one getattr per dependency,
left to right, as the arguments of a sum_na call are evaluated. -/
def resolveDeps (X : Xformer) (L : Table) : Nat → List String → Sess → Except Err (List PyVal) × Sess
  | 0, _, s => (.error .noFuel, s)
  | _ + 1, [], s => (.ok [], s)
  | fuel + 1, dep :: deps, s =>
      match pGetAttr X L fuel dep s with
      | (.error e, s1) => (.error e, s1)
      | (.ok v, s1) =>
          match resolveDeps X L fuel deps s1 with
          | (.error e, s2) => (.error e, s2)
          | (.ok vs, s2) => (.ok (v :: vs), s2)

end

/-- Transformer._load_cached body: one Cache.load per requested field, the
year pseudo-field skipped, a CacheError swallowed per field, every found
column appended to the partial frame. -/
def lc_aux (year : Int) (st : Store) : List String → Table → Table
  | [], data => data
  | attr :: rest, data =>
      if attr = "year" then lc_aux year st rest data
      else
        match cacheLoad st year [attr] with
        | .ok ((_, c) :: _) => lc_aux year st rest (Table.setCol data attr c)
        | .ok [] => lc_aux year st rest data
        | .error _ => lc_aux year st rest data

/-- Transformer._load_cached. -/
def load_cached (X : Xformer) (st : Store) : Table :=
  lc_aux X.year st X.fields []

/-- The resolution loop of Transformer.__call__: every requested field that
is not the year pseudo-field and not yet a column of the working table is
fetched through the proxy; a non-None result is recorded in extra (the
frame column itself was already stored by the fallback). -/
def resolveLoop (X : Xformer) (L : Table) (fuel : Nat) :
    List String → Sess → List (String × Column) → Except Err (Sess × List (String × Column))
  | [], s, extra => .ok (s, extra)
  | attr :: rest, s, extra =>
      if attr = "year" then resolveLoop X L fuel rest s extra
      else if (Table.getCol? s.data attr).isSome then resolveLoop X L fuel rest s extra
      else
        match pGetAttr X L fuel attr s with
        | (.error e, _) => .error e
        | (.ok (some col), s1) => resolveLoop X L fuel rest s1 (extra ++ [(attr, col)])
        | (.ok none, s1) => resolveLoop X L fuel rest s1 extra

/-- Transformer.__call__ (the materialize entry point).  Load cached
columns; return them directly when their count matches the requested count;
otherwise run the resolution loop on a fresh session, broadcast the year
pseudo-field if requested, persist the newly computed columns in one batch,
and slice the working table to the requested fields that are present, in
requested order.  The result carries the output frame, the updated store
and the number of loader invocations of this call. -/
def callX (X : Xformer) (L : Table) (st : Store) (fuel : Nat) :
    Except Err (Table × Store × Nat) :=
  let df := load_cached X st
  if df.length = X.fields.length then .ok (df, st, 0)
  else
    match resolveLoop X L fuel X.fields ⟨df, none, 0⟩ [] with
    | .error e => .error e
    | .ok (s1, extra) =>
        let s2 : Sess :=
          if "year" ∈ X.fields then
            ⟨Table.setCol s1.data "year" (List.replicate (Table.nrows s1.data) (some X.year)),
             s1.raw, s1.calls⟩
          else s1
        let st2 := if extra.isEmpty then st else cacheSave st X.year extra
        let out := (X.fields.filter (fun c => (Table.getCol? s2.data c).isSome)).map
                     (fun c => (c, (Table.getCol? s2.data c).getD []))
        .ok (out, st2, s2.calls)

/-- Two materialize calls in succession on the same transformer, the second
starting from the store left by the first; the third component is the total
number of loader invocations across both calls. -/
def twoCalls (X : Xformer) (L : Table) (st : Store) (fuel : Nat) :
    Except Err (Table × Table × Nat) :=
  match callX X L st fuel with
  | .error e => .error e
  | .ok (o1, st1, k1) =>
      match callX X L st1 fuel with
      | .error e => .error e
      | .ok (o2, _, k2) => .ok (o1, o2, k1 + k2)

/-
Concrete instances and auxiliary predicates used by the theorems below.
-/

instance : DecidableEq (Table × Store × Nat) := instDecidableEqProd

instance : DecidableEq (Table × Table × Nat) := instDecidableEqProd

instance : DecidableEq (Sess × List (String × Column)) := instDecidableEqProd

/-- Column lookup in a plain (name, column) mapping, empty on a miss. -/
def lookupCol (data : List (String × Column)) (c : String) : Column :=
  ((data.find? (fun p => p.1 = c)).map (fun p => p.2)).getD []

/-- Session progress relative to the loader: either the raw handle and the
call counter are untouched, or the handle was acquired exactly once (the
counter grew by one and the handle now caches the loader result). -/
def Prog (L : Table) (s s1 : Sess) : Prop :=
  (s1.raw = s.raw ∧ s1.calls = s.calls) ∨
  (s.raw = none ∧ s1.raw = some L ∧ s1.calls = s.calls + 1)

/-- A transformer with a single generic field whose year spec declares the
field unavailable for every year. -/
def unavailX : Xformer :=
  ⟨2000, ["f"],
   fun g => if g = "f" then
     some (.plain (.byYear [(.range none none, .unavailable)]) (some (-1))) else none⟩

/-- A transformer with a single generic field mapped to the raw column V1,
which the raw source below does not provide. -/
def rawMissX : Xformer :=
  ⟨2000, ["f"], fun g => if g = "f" then some (.plain (.str "V1") (some (-1))) else none⟩

/-
Lemmas about sum_na.
-/

theorem length_foldl_andMask :
    ∀ (cs : List Column) (m : List Bool), (∀ c ∈ cs, c.length = m.length) →
      (cs.foldl andMask m).length = m.length := by
  intro cs
  induction cs with
  | nil => intro m _; rfl
  | cons c cs ih =>
      intro m h
      have hc : c.length = m.length := h c (by simp)
      have hm : (andMask m c).length = m.length := by
        simp [andMask, List.length_zipWith, hc]
      simp only [List.foldl_cons]
      rw [ih (andMask m c) (fun c2 hc2 => by rw [hm]; exact h c2 (by simp [hc2])), hm]

theorem length_foldl_addNa :
    ∀ (cs : List Column) (r : List Int), (∀ c ∈ cs, c.length = r.length) →
      (cs.foldl addNa r).length = r.length := by
  intro cs
  induction cs with
  | nil => intro r _; rfl
  | cons c cs ih =>
      intro r h
      have hc : c.length = r.length := h c (by simp)
      have hm : (addNa r c).length = r.length := by
        simp [addNa, List.length_zipWith, hc]
      simp only [List.foldl_cons]
      rw [ih (addNa r c) (fun c2 hc2 => by rw [hm]; exact h c2 (by simp [hc2])), hm]

theorem foldl_andMask_getD :
    ∀ (cs : List Column) (m : List Bool) (i : Nat),
      (∀ c ∈ cs, c.length = m.length) → i < m.length →
      (cs.foldl andMask m).getD i false =
        (m.getD i false && cs.all (fun c => (c.getD i (none : Option Int)).isNone)) := by
  intro cs
  induction cs with
  | nil => intro m i _ _; simp
  | cons c cs ih =>
      intro m i h hi
      have hc : c.length = m.length := h c (by simp)
      have hm : (andMask m c).length = m.length := by
        simp [andMask, List.length_zipWith, hc]
      simp only [List.foldl_cons, List.all_cons]
      rw [ih (andMask m c) i (fun c2 hc2 => by rw [hm]; exact h c2 (by simp [hc2]))
            (by rw [hm]; exact hi)]
      have hstep : (andMask m c).getD i false = (m.getD i false && (c.getD i none).isNone) := by
        rw [List.getD_eq_getElem _ _ (by rw [hm]; exact hi),
            List.getD_eq_getElem _ _ hi, List.getD_eq_getElem _ _ (by rw [hc]; exact hi)]
        simp [andMask, List.getElem_zipWith]
      rw [hstep, Bool.and_assoc]

theorem foldl_addNa_getD :
    ∀ (cs : List Column) (r : List Int) (i : Nat),
      (∀ c ∈ cs, c.length = r.length) → i < r.length →
      (cs.foldl addNa r).getD i 0 =
        r.getD i 0 + (cs.map (fun c => (c.getD i (none : Option Int)).getD 0)).sum := by
  intro cs
  induction cs with
  | nil => intro r i _ _; simp
  | cons c cs ih =>
      intro r i h hi
      have hc : c.length = r.length := h c (by simp)
      have hm : (addNa r c).length = r.length := by
        simp [addNa, List.length_zipWith, hc]
      simp only [List.foldl_cons, List.map_cons, List.sum_cons]
      rw [ih (addNa r c) i (fun c2 hc2 => by rw [hm]; exact h c2 (by simp [hc2]))
            (by rw [hm]; exact hi)]
      have hstep : (addNa r c).getD i 0 = r.getD i 0 + (c.getD i none).getD 0 := by
        rw [List.getD_eq_getElem _ _ (by rw [hm]; exact hi),
            List.getD_eq_getElem _ _ hi, List.getD_eq_getElem _ _ (by rw [hc]; exact hi)]
        simp [addNa, List.getElem_zipWith]
      rw [hstep, add_assoc]

/-- C1: for two or more equally long numeric columns, sum_na produces the
element-wise sum in which each missing input counts as 0, except that a row
whose inputs are all missing stays missing; in particular the two
compositions of the claim evaluate as stated. -/
theorem sum_na_unit_composition :
    (∀ (x0 x1 : Column) (rest : List Column) (n : Nat),
      x0.length = n → x1.length = n → (∀ c ∈ rest, c.length = n) →
      (sum_na x0 (x1 :: rest)).length = n ∧
      ∀ i, i < n →
        (sum_na x0 (x1 :: rest)).getD i (some 0) =
          (if ((x0 :: x1 :: rest).all (fun c => (c.getD i none).isNone)) = true then none
           else some (((x0 :: x1 :: rest).map (fun c => (c.getD i none).getD 0)).sum))) ∧
    sum_na [none, some 5, none] [[none, none, some 3]] = [none, some 5, some 3] ∧
    sum_na [none, none] [[none, none]] = [none, none] := by
  refine ⟨?_, by decide, by decide⟩
  intro x0 x1 rest n h0 h1 hr
  have hall : ∀ c ∈ x1 :: rest, c.length = n := by
    intro c hc
    rcases List.mem_cons.mp hc with rfl | hc
    · exact h1
    · exact hr c hc
  have hmlen : (x0.map Option.isNone).length = n := by simp [h0]
  have hrlen : (x0.map (fun x => x.getD 0)).length = n := by simp [h0]
  have hisl : ((x1 :: rest).foldl andMask (x0.map Option.isNone)).length = n := by
    rw [length_foldl_andMask _ _ (fun c hc => by rw [hmlen]; exact hall c hc), hmlen]
  have hresl : ((x1 :: rest).foldl addNa (x0.map (fun x => x.getD 0))).length = n := by
    rw [length_foldl_addNa _ _ (fun c hc => by rw [hrlen]; exact hall c hc), hrlen]
  have hlen : (sum_na x0 (x1 :: rest)).length = n := by
    rw [show sum_na x0 (x1 :: rest) =
          ((((x1 :: rest).foldl addNa (x0.map (fun x => x.getD 0))).zip
            ((x1 :: rest).foldl andMask (x0.map Option.isNone))).map
              (fun p => if p.2 then none else some p.1)) from rfl]
    rw [List.length_map, List.length_zip, hisl, hresl, Nat.min_self]
  refine ⟨hlen, ?_⟩
  intro i hi
  rw [show sum_na x0 (x1 :: rest) =
        ((((x1 :: rest).foldl addNa (x0.map (fun x => x.getD 0))).zip
          ((x1 :: rest).foldl andMask (x0.map Option.isNone))).map
            (fun p => if p.2 then none else some p.1)) from rfl]
  rw [List.getD_eq_getElem _ _
        (by rw [List.length_map, List.length_zip, hisl, hresl, Nat.min_self]; exact hi)]
  rw [List.getElem_map, List.getElem_zip]
  have hmask : ((x1 :: rest).foldl andMask (x0.map Option.isNone))[i] =
      ((x0 :: x1 :: rest).all (fun c => (c.getD i none).isNone)) := by
    rw [← List.getD_eq_getElem _ false (by rw [hisl]; exact hi)]
    rw [foldl_andMask_getD _ _ i (fun c hc => by rw [hmlen]; exact hall c hc)
          (by rw [hmlen]; exact hi)]
    rw [List.getD_eq_getElem _ _ (by rw [hmlen]; exact hi), List.getElem_map]
    rw [← List.getD_eq_getElem _ none (by rw [h0]; exact hi)]
    simp [List.all_cons]
  have hsum : ((x1 :: rest).foldl addNa (x0.map (fun x => x.getD 0)))[i] =
      (((x0 :: x1 :: rest).map (fun c => (c.getD i none).getD 0)).sum) := by
    rw [← List.getD_eq_getElem _ 0 (by rw [hresl]; exact hi)]
    rw [foldl_addNa_getD _ _ i (fun c hc => by rw [hrlen]; exact hall c hc)
          (by rw [hrlen]; exact hi)]
    rw [List.getD_eq_getElem _ _ (by rw [hrlen]; exact hi), List.getElem_map]
    rw [← List.getD_eq_getElem _ none (by rw [h0]; exact hi)]
    simp [List.map_cons, List.sum_cons]
  rw [hmask, hsum]

/-- C1 witness: the general part of the theorem applied to a concrete pair
of equally long columns. -/
theorem sum_na_unit_composition_witness :
    (sum_na [none, some 5, none] [[none, none, some 3]]).getD 1 (some 0) = some 5 := by
  have h := (sum_na_unit_composition.1 [none, some 5, none] [none, none, some 3]
    ([] : List Column) 3 (by decide) (by decide) (by intro c hc; cases hc)).2 1 (by decide)
  simpa using h

/-
Lemmas about sentinel cleaning.
-/

theorem foldl_mask_value :
    ∀ (S : List Int) (lst : Column),
      S.foldl mask_value lst =
        lst.map (fun x => match x with
                          | none => none
                          | some v => if v ∈ S then none else some v) := by
  intro S
  induction S with
  | nil =>
      intro lst
      simp only [List.foldl_nil]
      symm
      refine Eq.trans (List.map_congr_left ?_) (List.map_id lst)
      intro x _
      cases x <;> simp
  | cons a S ih =>
      intro lst
      simp only [List.foldl_cons]
      rw [ih (mask_value lst a)]
      rw [mask_value, List.map_map]
      refine List.map_congr_left ?_
      intro x _
      cases x with
      | none => simp
      | some v =>
          by_cases hv : v = a
          · subst hv; simp
          · simp only [Function.comp]
            rw [if_neg (by simp [hv])]
            by_cases hm : v ∈ S
            · simp [hm, hv]
            · simp [hm, hv]

/-- C5: income cleaning replaces exactly the cells equal to one of the six
declared sentinels by the missing marker and passes every other cell
through; generic cleaning with a single declared sentinel likewise replaces
exactly the cells equal to that sentinel; and the concrete example of the
claim evaluates as stated. -/
theorem sentinel_normalization :
    (∀ (lst : Column) (i : Nat),
      (remove_missing lst).length = lst.length ∧
      (remove_missing lst).getD i none =
        (match lst.getD i none with
         | none => none
         | some v => if v ∈ missing_sentinels then none else some v)) ∧
    (∀ (m : Int) (col : Column) (i : Nat),
      (clean (some m) col).length = col.length ∧
      (clean (some m) col).getD i none =
        (if col.getD i none = some m then none else col.getD i none)) ∧
    remove_missing [some 10, some (-1), some 999999, some 42] =
      [some 10, none, none, some 42] := by
  refine ⟨?_, ?_, by decide⟩
  · intro lst i
    rw [remove_missing, foldl_mask_value]
    constructor
    · simp
    · by_cases hi : i < lst.length
      · rw [List.getD_eq_getElem _ _ (by simpa using hi), List.getElem_map,
            ← List.getD_eq_getElem _ none hi]
      · rw [List.getD_eq_getElem?_getD, List.getD_eq_getElem?_getD,
            List.getElem?_eq_none (by simpa using Nat.le_of_not_lt hi),
            List.getElem?_eq_none (Nat.le_of_not_lt hi)]
        rfl
  · intro m col i
    constructor
    · simp [clean]
    · by_cases hi : i < col.length
      · rw [clean, List.getD_eq_getElem _ _ (by simpa using hi), List.getElem_map,
            ← List.getD_eq_getElem _ none hi]
      · rw [clean, List.getD_eq_getElem?_getD, List.getD_eq_getElem?_getD,
            List.getElem?_eq_none (by simpa using Nat.le_of_not_lt hi),
            List.getElem?_eq_none (Nat.le_of_not_lt hi)]
        rfl

/-
Lemmas about the year-spec resolver.
-/

theorem lowerLE_refl (a : Option Int) : lowerLE a a = true := by
  cases a <;> simp [lowerLE]

theorem lowerLE_total (a b : Option Int) : (lowerLE a b || lowerLE b a) = true := by
  cases a <;> cases b <;> simp [lowerLE] <;> omega

theorem lowerLE_trans (a b c : Option Int) :
    lowerLE a b = true → lowerLE b c = true → lowerLE a c = true := by
  cases a <;> cases b <;> cases c <;> simp [lowerLE] <;> omega

theorem lowerLE_antisymm (a b : Option Int) :
    lowerLE a b = true → lowerLE b a = true → a = b := by
  cases a <;> cases b <;> simp [lowerLE] <;> omega

theorem upperLE_total (a b : Option Int) : (upperLE a b || upperLE b a) = true := by
  cases a <;> cases b <;> simp [upperLE] <;> omega

theorem upperLE_trans (a b c : Option Int) :
    upperLE a b = true → upperLE b c = true → upperLE a c = true := by
  cases a <;> cases b <;> cases c <;> simp [upperLE] <;> omega

theorem specLE_total (p q : NormItem) : (specLE p q || specLE q p) = true := by
  unfold specLE
  by_cases h : p.1 = q.1
  · rw [if_pos h, if_pos h.symm]
    exact upperLE_total _ _
  · rw [if_neg h, if_neg (fun h2 => h h2.symm)]
    exact lowerLE_total _ _

theorem specLE_trans (p q r : NormItem) :
    specLE p q = true → specLE q r = true → specLE p r = true := by
  unfold specLE
  by_cases hpq : p.1 = q.1 <;> by_cases hqr : q.1 = r.1
  · rw [if_pos hpq, if_pos hqr, if_pos (hpq.trans hqr)]
    exact upperLE_trans _ _ _
  · rw [if_pos hpq, if_neg hqr, if_neg (hpq ▸ hqr)]
    intro _ h
    exact hpq ▸ h
  · rw [if_neg hpq, if_pos hqr, if_neg (hqr ▸ hpq)]
    intro h _
    exact hqr ▸ h
  · rw [if_neg hpq, if_neg hqr]
    intro h1 h2
    by_cases hpr : p.1 = r.1
    · exact absurd (lowerLE_antisymm _ _ h1 (hpr ▸ h2)) hpq
    · rw [if_neg hpr]
      exact lowerLE_trans _ _ _ h1 h2

theorem find?_some_split {α : Type} (p : α → Bool) :
    ∀ (l : List α) (a : α), l.find? p = some a →
      ∃ pre post, l = pre ++ a :: post ∧ p a = true ∧ ∀ x ∈ pre, p x = false := by
  intro l
  induction l with
  | nil => intro a h; cases h
  | cons b l ih =>
      intro a h
      rw [List.find?_cons] at h
      cases hb : p b with
      | true =>
          rw [hb] at h
          cases h
          exact ⟨[], l, rfl, hb, by intro x hx; cases hx⟩
      | false =>
          rw [hb] at h
          obtain ⟨pre, post, rfl, hpa, hpre⟩ := ih a h
          refine ⟨b :: pre, post, rfl, hpa, ?_⟩
          intro x hx
          rcases List.mem_cons.mp hx with rfl | hx
          · exact hb
          · exact hpre x hx

/-- C4: select_by_year sorts the normalized intervals by lower bound and
returns the outcome of the first interval containing the year; when no
interval contains the year it raises the no-matching-range error, and it
raises that error exactly in that case. -/
theorem select_by_year_first_match (year : Int) (D : List (YearKey × Outcome)) :
    List.Pairwise (fun p q : NormItem => lowerLE p.1 q.1 = true) (sortSpec D) ∧
    (∀ v, select_by_year year D = .ok v →
        ∃ pre p post, sortSpec D = pre ++ p :: post ∧ containsB year p = true ∧
          p.2.2 = v ∧ ∀ q ∈ pre, containsB year q = false) ∧
    (select_by_year year D = .error (.noRange year) ↔
        ∀ p ∈ D.map normItem, containsB year p = false) := by
  have htot : IsTotal NormItem NormLE :=
    ⟨fun a b => ((Bool.or_eq_true _ _).mp (specLE_total a b)).imp id id⟩
  have htr : IsTrans NormItem NormLE := ⟨fun a b c => specLE_trans a b c⟩
  refine ⟨?_, ?_, ?_⟩
  · have hs := @List.sorted_insertionSort NormItem NormLE _ htot htr (D.map normItem)
    refine List.Pairwise.imp ?_ hs
    intro a b h
    rw [NormLE] at h
    by_cases he : a.1 = b.1
    · rw [he]
      exact lowerLE_refl _
    · rw [specLE, if_neg he] at h
      exact h
  · intro v hv
    unfold select_by_year at hv
    cases hf : (sortSpec D).find? (containsB year) with
    | none => rw [hf] at hv; cases hv
    | some p =>
        rw [hf] at hv
        injection hv with hv
        obtain ⟨pre, post, heq, hp, hpre⟩ := find?_some_split _ _ _ hf
        exact ⟨pre, p, post, heq, hp, hv, hpre⟩
  · constructor
    · intro h p hp
      unfold select_by_year at h
      cases hf : (sortSpec D).find? (containsB year) with
      | some q => rw [hf] at h; cases h
      | none =>
          have hnone := List.find?_eq_none.mp hf
          have hp2 : p ∈ sortSpec D :=
            ((List.perm_insertionSort NormLE (D.map normItem)).mem_iff).mpr hp
          simpa using hnone p hp2
    · intro h
      unfold select_by_year
      have hf : (sortSpec D).find? (containsB year) = none := by
        refine List.find?_eq_none.mpr ?_
        intro x hx
        have hx2 : x ∈ D.map normItem :=
          ((List.perm_insertionSort NormLE (D.map normItem)).mem_iff).mp hx
        simp [h x hx2]
      rw [hf]

/-- C4 witness: the theorem applied to the year specification of the
select_by_year docstring, at year 1999. -/
theorem select_by_year_first_match_witness :
    ∃ pre p post,
      sortSpec [((.range none (some 1990) : YearKey), Outcome.col "foo"),
                (.single (some 1991), Outcome.col "bar"),
                (.range (some 1992) (some 2000), Outcome.col "foobar"),
                (.range (some 2001) none, Outcome.col "blah")] = pre ++ p :: post ∧
      containsB 1999 p = true ∧ p.2.2 = Outcome.col "foobar" ∧
      ∀ q ∈ pre, containsB 1999 q = false :=
  (select_by_year_first_match 1999
    [((.range none (some 1990) : YearKey), Outcome.col "foo"),
     (.single (some 1991), Outcome.col "bar"),
     (.range (some 1992) (some 2000), Outcome.col "foobar"),
     (.range (some 2001) none, Outcome.col "blah")]).2.1 (Outcome.col "foobar") (by decide)

/-
Lemmas about tables and the durable store.
-/

theorem getCol?_setCol (t : Table) (n : String) (c : Column) (m : String) :
    Table.getCol? (Table.setCol t n c) m = if m = n then some c else Table.getCol? t m := by
  induction t with
  | nil =>
      by_cases h : m = n
      · subst h
        simp [Table.setCol, Table.getCol?]
      · simp [Table.setCol, Table.getCol?, h, Ne.symm h]
  | cons hd rest ih =>
      obtain ⟨a, b⟩ := hd
      by_cases h1 : a = n
      · subst h1
        by_cases h : m = a
        · subst h
          simp [Table.setCol, Table.getCol?]
        · simp [Table.setCol, Table.getCol?, h, Ne.symm h]
      · by_cases h : m = a
        · subst h
          simp [Table.setCol, h1, Table.getCol?, Ne.symm h1]
        · simp only [Table.getCol?] at ih
          simp [Table.setCol, h1, Table.getCol?, Ne.symm h, ih]

theorem columns_setCol (t : Table) (n : String) (c : Column) :
    Table.columns (Table.setCol t n c) =
      if n ∈ Table.columns t then Table.columns t else Table.columns t ++ [n] := by
  induction t with
  | nil => simp [Table.setCol, Table.columns]
  | cons hd rest ih =>
      obtain ⟨a, b⟩ := hd
      by_cases h1 : a = n
      · subst h1
        simp [Table.setCol, Table.columns]
      · have h4 : Table.setCol ((a, b) :: rest) n c = (a, b) :: Table.setCol rest n c := by
          simp [Table.setCol, h1]
        have h5 : Table.columns ((a, b) :: Table.setCol rest n c) =
            a :: Table.columns (Table.setCol rest n c) := rfl
        have h3 : Table.columns ((a, b) :: rest) = a :: Table.columns rest := rfl
        rw [h4, h5, ih, h3]
        by_cases h2 : n ∈ Table.columns rest
        · rw [if_pos h2, if_pos (List.mem_cons.mpr (Or.inr h2))]
        · rw [if_neg h2, if_neg (by
            intro hm
            rcases List.mem_cons.mp hm with h6 | h6
            · exact h1 h6.symm
            · exact h2 h6)]
          rfl

theorem getCol?_isSome_iff (t : Table) (a : String) :
    (Table.getCol? t a).isSome = true ↔ a ∈ Table.columns t := by
  induction t with
  | nil => simp [Table.getCol?, Table.columns]
  | cons hd rest ih =>
      obtain ⟨n, b⟩ := hd
      by_cases h : n = a
      · subst h
        simp [Table.getCol?, Table.columns]
      · simp only [Table.getCol?] at ih
        simp [Table.getCol?, Table.columns, h, Ne.symm h, ih]

theorem getCol?_of_map (F : List String) (g : String → Column) (a : String) :
    Table.getCol? (F.map (fun c => (c, g c))) a = if a ∈ F then some (g a) else none := by
  induction F with
  | nil => simp [Table.getCol?]
  | cons f F ih =>
      by_cases h : f = a
      · subst h
        simp [Table.getCol?]
      · simp only [Table.getCol?] at ih
        simp [Table.getCol?, h, Ne.symm h, ih, -List.find?_map]

theorem table_eq_map_of_nodup (t : Table) (hn : (Table.columns t).Nodup) :
    t = (Table.columns t).map (fun f => (f, (Table.getCol? t f).getD [])) := by
  induction t with
  | nil => rfl
  | cons hd rest ih =>
      obtain ⟨n, c⟩ := hd
      have hcols : Table.columns ((n, c) :: rest) = n :: Table.columns rest := rfl
      rw [hcols] at hn ⊢
      have hn2 : (Table.columns rest).Nodup := (List.nodup_cons.mp hn).2
      have hnot : n ∉ Table.columns rest := (List.nodup_cons.mp hn).1
      rw [List.map_cons]
      congr 1
      · simp [Table.getCol?]
      · have e : List.map (fun f => (f, (Table.getCol? ((n, c) :: rest) f).getD []))
              (Table.columns rest) =
            List.map (fun f => (f, (Table.getCol? rest f).getD [])) (Table.columns rest) := by
          refine List.map_congr_left ?_
          intro f hf
          have hfn : ¬n = f := fun h => hnot (h ▸ hf)
          simp [Table.getCol?, hfn]
        rw [e]
        exact ih hn2

theorem get?_put (st : Store) (k : Key) (c : Column) (k2 : Key) :
    Store.get? (Store.put st k c) k2 = if k2 = k then some c else Store.get? st k2 := by
  induction st with
  | nil =>
      by_cases h : k2 = k
      · subst h
        simp [Store.put, Store.get?]
      · simp [Store.put, Store.get?, h, Ne.symm h]
  | cons hd rest ih =>
      obtain ⟨a, b⟩ := hd
      by_cases h1 : a = k
      · subst h1
        by_cases h : k2 = a
        · subst h
          simp [Store.put, Store.get?]
        · simp [Store.put, Store.get?, h, Ne.symm h]
      · by_cases h : k2 = a
        · subst h
          simp [Store.put, h1, Store.get?, Ne.symm h1]
        · simp only [Store.get?] at ih
          simp [Store.put, h1, Store.get?, Ne.symm h, ih]

theorem cacheSave_get_same_year (y : Int) :
    ∀ (data : List (String × Column)) (st : Store) (c : String),
      (data.map (fun p => p.1)).Nodup →
      Store.get? (cacheSave st y data) (y, c) =
        (match data.find? (fun p => p.1 = c) with
         | some p => some p.2
         | none => Store.get? st (y, c)) := by
  intro data
  induction data with
  | nil => intro st c _; rfl
  | cons hd rest ih =>
      obtain ⟨n, col⟩ := hd
      intro st c hn
      have hn2 : (rest.map (fun p => p.1)).Nodup := (List.nodup_cons.mp (by simpa using hn)).2
      have hnot : n ∉ rest.map (fun p => p.1) := (List.nodup_cons.mp (by simpa using hn)).1
      simp only [cacheSave, List.foldl_cons]
      rw [show (List.foldl (fun acc p => Store.put acc (y, p.1) p.2)
            (Store.put st (y, (n, col).1) (n, col).2) rest) =
          cacheSave (Store.put st (y, n) col) y rest from rfl]
      rw [ih (Store.put st (y, n) col) c hn2]
      by_cases h : n = c
      · subst h
        have hfr : rest.find? (fun p => p.1 = n) = none := by
          refine List.find?_eq_none.mpr ?_
          intro p hp
          simp only [decide_eq_true_eq]
          intro h2
          exact hnot (h2 ▸ List.mem_map_of_mem (fun q => q.1) hp)
        rw [hfr]
        simp [List.find?_cons, get?_put]
      · rw [List.find?_cons, show (decide ((n, col).1 = c)) = false by simp [h]]
        cases hfr : rest.find? (fun p => p.1 = c) with
        | some p => rfl
        | none =>
            rw [get?_put]
            rw [if_neg (by intro h2; injection h2 with h3 h4; exact h h4.symm)]

theorem cacheLoad_all_present (st : Store) (y : Int) :
    ∀ cols : List String, (∀ c ∈ cols, (Store.get? st (y, c)).isSome) →
      cacheLoad st y cols = .ok (cols.map (fun c => (c, (Store.get? st (y, c)).getD []))) := by
  intro cols
  induction cols with
  | nil => intro _; rfl
  | cons c cs ih =>
      intro h
      have hc := h c (by simp)
      obtain ⟨v, hv⟩ := Option.isSome_iff_exists.mp hc
      simp only [cacheLoad, hv]
      rw [ih (fun c2 hc2 => h c2 (by simp [hc2]))]
      simp [hv]

/-- C10: after Cache.save, Cache.load of any list of the saved field names
returns exactly those columns, in that order, with the saved values; saving
under an existing (year, field) key overwrites it unconditionally; entries
under any other key are unaffected. -/
theorem cache_round_trip :
    (∀ (st : Store) (y : Int) (data : List (String × Column)) (cols : List String),
      (data.map (fun p => p.1)).Nodup →
      (∀ c ∈ cols, c ∈ data.map (fun p => p.1)) →
      cacheLoad (cacheSave st y data) y cols =
        .ok (cols.map (fun c => (c, lookupCol data c)))) ∧
    (∀ (st : Store) (y : Int) (f : String) (c1 c2 : Column),
      Store.get? (cacheSave (cacheSave st y [(f, c1)]) y [(f, c2)]) (y, f) = some c2) ∧
    (∀ (st : Store) (k k2 : Key) (c : Column), k2 ≠ k →
      Store.get? (Store.put st k c) k2 = Store.get? st k2) := by
  refine ⟨?_, ?_, ?_⟩
  · intro st y data cols hn hmem
    have hget : ∀ c ∈ cols, Store.get? (cacheSave st y data) (y, c) = some (lookupCol data c) := by
      intro c hc
      rw [cacheSave_get_same_year y data st c hn]
      obtain ⟨p, hp, hp2⟩ := List.exists_of_mem_map (hmem c hc)
      have hfind : (data.find? (fun q => q.1 = c)).isSome = true := by
        rw [List.find?_isSome]
        exact ⟨p, hp, by simp only [decide_eq_true_eq]; exact hp2⟩
      obtain ⟨q, hq⟩ := Option.isSome_iff_exists.mp hfind
      rw [hq]
      simp [lookupCol, hq]
    rw [cacheLoad_all_present _ _ cols (fun c hc => by rw [hget c hc]; rfl)]
    congr 1
    refine List.map_congr_left ?_
    intro c hc
    rw [hget c hc]
    rfl
  · intro st y f c1 c2
    simp [cacheSave, get?_put]
  · intro st k k2 c h
    rw [get?_put]
    exact if_neg h

/-- C10 witness: the round trip applied to one concrete store, two saved
fields and a reordered request, plus an overwrite and an untouched key. -/
theorem cache_round_trip_witness :
    cacheLoad (cacheSave [] 1992 [("a", [some 1]), ("b", [none])]) 1992 ["b", "a"] =
      .ok [("b", [none]), ("a", [some 1])] ∧
    Store.get? (cacheSave (cacheSave [] 1992 [("a", [some 1])]) 1992 [("a", [some 2])])
      (1992, "a") = some [some 2] ∧
    Store.get? (Store.put [((1992, "b"), [none])] (1992, "a") [some 1]) (1992, "b") =
      some [none] := by
  refine ⟨?_, ?_, ?_⟩
  · have h := cache_round_trip.1 [] 1992 [("a", [some 1]), ("b", [none])] ["b", "a"]
      (by decide) (by decide)
    simpa [lookupCol] using h
  · exact cache_round_trip.2.1 [] 1992 "a" [some 1] [some 2]
  · have h := cache_round_trip.2.2 [((1992, "b"), [none])] (1992, "a") (1992, "b") [some 1]
      (by decide)
    simpa using h

/-
Lemmas about the per-field cache loading of the orchestrator.
-/

theorem lc_aux_getCol? (y : Int) (st : Store) :
    ∀ (attrs : List String) (acc : Table) (a : String),
      Table.getCol? (lc_aux y st attrs acc) a =
        if a ∈ attrs ∧ a ≠ "year" ∧ (Store.get? st (y, a)).isSome = true
        then Store.get? st (y, a) else Table.getCol? acc a := by
  intro attrs
  induction attrs with
  | nil =>
      intro acc a
      simp [lc_aux]
  | cons attr rest ih =>
      intro acc a
      by_cases hy : attr = "year"
      · subst hy
        rw [lc_aux, if_pos rfl, ih]
        by_cases h1 : a ∈ rest ∧ a ≠ "year" ∧ (Store.get? st (y, a)).isSome = true
        · rw [if_pos h1, if_pos ⟨List.mem_cons_of_mem _ h1.1, h1.2⟩]
        · rw [if_neg h1, if_neg ?_]
          rintro ⟨hmem, hne, hsome⟩
          rcases List.mem_cons.mp hmem with rfl | hmem
          · exact hne rfl
          · exact h1 ⟨hmem, hne, hsome⟩
      · rw [lc_aux, if_neg hy]
        cases hs : Store.get? st (y, attr) with
        | none =>
            rw [show cacheLoad st y [attr] = .error attr by simp [cacheLoad, hs]]
            rw [ih]
            by_cases h1 : a ∈ rest ∧ a ≠ "year" ∧ (Store.get? st (y, a)).isSome = true
            · rw [if_pos h1, if_pos ⟨List.mem_cons_of_mem _ h1.1, h1.2⟩]
            · rw [if_neg h1, if_neg ?_]
              rintro ⟨hmem, hne, hsome⟩
              rcases List.mem_cons.mp hmem with rfl | hmem
              · rw [hs] at hsome
                cases hsome
              · exact h1 ⟨hmem, hne, hsome⟩
        | some v =>
            rw [show cacheLoad st y [attr] = .ok [(attr, v)] by simp [cacheLoad, hs]]
            rw [ih]
            by_cases h1 : a ∈ rest ∧ a ≠ "year" ∧ (Store.get? st (y, a)).isSome = true
            · rw [if_pos h1, if_pos ⟨List.mem_cons_of_mem _ h1.1, h1.2⟩]
            · rw [if_neg h1, getCol?_setCol]
              by_cases h2 : a = attr
              · subst h2
                rw [if_pos rfl, if_pos ⟨by simp, hy, by simp [hs]⟩, hs]
              · rw [if_neg h2, if_neg ?_]
                rintro ⟨hmem, hne, hsome⟩
                rcases List.mem_cons.mp hmem with rfl | hmem
                · exact h2 rfl
                · exact h1 ⟨hmem, hne, hsome⟩

/-- C7: Cache.load fails with the cache-miss error naming precisely the
first requested field with no durable entry for the year, and the
orchestrator loads cached fields one at a time, tolerating per-field
misses, so a cache miss never escapes the loading step: the partial frame
simply holds every requested non-year field that has a durable entry. -/
theorem cache_miss_per_field :
    (∀ (st : Store) (y : Int) (cols : List String) (f : String),
      cacheLoad st y cols = .error f ↔
        ∃ pre post, cols = pre ++ f :: post ∧
          (∀ c ∈ pre, (Store.get? st (y, c)).isSome = true) ∧
          Store.get? st (y, f) = none) ∧
    (∀ (X : Xformer) (st : Store) (a : String),
      Table.getCol? (load_cached X st) a =
        if a ∈ X.fields ∧ a ≠ "year" ∧ (Store.get? st (X.year, a)).isSome = true
        then Store.get? st (X.year, a) else none) := by
  constructor
  · intro st y cols
    induction cols with
    | nil =>
        intro f
        constructor
        · intro h
          cases h
        · rintro ⟨pre, post, h, -, -⟩
          cases pre <;> cases h
    | cons c cs ih =>
        intro f
        cases hs : Store.get? st (y, c) with
        | none =>
            rw [show cacheLoad st y (c :: cs) = .error c by simp [cacheLoad, hs]]
            constructor
            · intro h
              injection h with h
              subst h
              exact ⟨[], cs, rfl, fun x hx => absurd hx (List.not_mem_nil x), hs⟩
            · rintro ⟨pre, post, heq, hpre, hf⟩
              cases pre with
              | nil =>
                  injection heq with h1 h2
                  rw [h1]
              | cons p ps =>
                  injection heq with h1 h2
                  subst h1
                  have := hpre c (by simp)
                  rw [hs] at this
                  cases this
        | some v =>
            have hrec : cacheLoad st y (c :: cs) =
                (match cacheLoad st y cs with
                 | .error e => .error e
                 | .ok t => .ok ((c, v) :: t)) := by
              simp [cacheLoad, hs]
            constructor
            · intro h
              rw [hrec] at h
              cases hcs : cacheLoad st y cs with
              | ok t => rw [hcs] at h; cases h
              | error e =>
                  rw [hcs] at h
                  injection h with h
                  obtain ⟨pre, post, heq, hpre, hf⟩ := (ih e).mp hcs
                  refine ⟨c :: pre, post, by simp [heq, h], ?_, h ▸ hf⟩
                  intro x hx
                  rcases List.mem_cons.mp hx with rfl | hx
                  · simp [hs]
                  · exact hpre x hx
            · rintro ⟨pre, post, heq, hpre, hf⟩
              cases pre with
              | nil =>
                  injection heq with h1 h2
                  subst h1
                  rw [hs] at hf
                  cases hf
              | cons p ps =>
                  injection heq with h1 h2
                  subst h1
                  have hcs : cacheLoad st y cs = .error f :=
                    (ih f).mpr ⟨ps, post, h2, fun x hx => hpre x (by simp [hx]), hf⟩
                  rw [hrec, hcs]
  · intro X st a
    rw [load_cached, lc_aux_getCol?]
    by_cases h : a ∈ X.fields ∧ a ≠ "year" ∧ (Store.get? st (X.year, a)).isSome = true
    · rw [if_pos h, if_pos h]
    · rw [if_neg h, if_neg h]
      rfl

/-- C7 witness: the first conjunct applied to a concrete store in which the
second of three requested fields is the first miss, and the second conjunct
applied to the same store through a transformer. -/
theorem cache_miss_per_field_witness :
    cacheLoad [((0, "a"), [some 1]), ((0, "c"), [none])] 0 ["a", "b", "c"] = .error "b" ∧
    Table.getCol? (load_cached ⟨0, ["a", "b", "c"], fun _ => none⟩
      [((0, "a"), [some 1]), ((0, "c"), [none])]) "b" = none := by
  constructor
  · exact (cache_miss_per_field.1 [((0, "a"), [some 1]), ((0, "c"), [none])] 0
      ["a", "b", "c"] "b").mpr ⟨["a"], ["c"], rfl, by decide, by decide⟩
  · have h := cache_miss_per_field.2 ⟨0, ["a", "b", "c"], fun _ => none⟩
      [((0, "a"), [some 1]), ((0, "c"), [none])] "b"
    simpa using h

/-- C8: when an item has no descriptor on the transformer and is absent
from the (lazily loaded) raw source as well, the fallback re-raises the
original lookup failure passed into it, unchanged, whatever exception value
that was. -/
theorem fallback_reraises_original (X : Xformer) (L : Table) (fuel : Nat) (item : String)
    (exc : Err) (s : Sess)
    (hd : X.descr item = none)
    (hraw : Table.getCol? (s.raw.getD L) item = none) :
    (pFallback X L (fuel + 1) item exc s).1 = .error exc := by
  rw [pFallback, hd]
  cases hr : s.raw with
  | none =>
      rw [hr] at hraw
      simp only [Option.getD_none] at hraw
      simp [hr, hraw]
  | some R =>
      rw [hr] at hraw
      simp only [Option.getD_some] at hraw
      simp [hr, hraw]

/-- C8 witness: the fallback applied to a concrete session whose raw source
lacks the item, with a concrete original exception. -/
theorem fallback_reraises_original_witness :
    (pFallback ⟨0, ["g"], fun _ => none⟩ [("V1", [some 1])] 5 "g" (.attrError "g")
      ⟨[], none, 0⟩).1 = .error (.attrError "g") :=
  fallback_reraises_original ⟨0, ["g"], fun _ => none⟩ [("V1", [some 1])] 4 "g"
    (.attrError "g") ⟨[], none, 0⟩ (by rfl) (by rfl)

/-
The loader-progress invariant of a resolution session.
-/

theorem Prog_refl (L : Table) (s : Sess) : Prog L s s := Or.inl ⟨rfl, rfl⟩

theorem Prog_trans {L : Table} {s1 s2 s3 : Sess}
    (h1 : Prog L s1 s2) (h2 : Prog L s2 s3) : Prog L s1 s3 := by
  rcases h1 with ⟨h1r, h1c⟩ | ⟨h1n, h1r, h1c⟩
  · rcases h2 with ⟨h2r, h2c⟩ | ⟨h2n, h2r, h2c⟩
    · exact Or.inl ⟨by rw [h2r, h1r], by rw [h2c, h1c]⟩
    · exact Or.inr ⟨by rw [← h1r]; exact h2n, h2r, by rw [h2c, h1c]⟩
  · rcases h2 with ⟨h2r, h2c⟩ | ⟨h2n, h2r, h2c⟩
    · exact Or.inr ⟨h1n, by rw [h2r, h1r], by rw [h2c, h1c]⟩
    · rw [h1r] at h2n
      cases h2n

theorem Prog_setData {L : Table} {s s1 : Sess} (d : Table) (h : Prog L s s1) :
    Prog L s ⟨d, s1.raw, s1.calls⟩ := by
  rcases h with ⟨hr, hc⟩ | ⟨hn, hr, hc⟩
  · exact Or.inl ⟨hr, hc⟩
  · exact Or.inr ⟨hn, hr, hc⟩

theorem prog_all (X : Xformer) (L : Table) : ∀ fuel : Nat,
    (∀ item s, Prog L s (pGetAttr X L fuel item s).2) ∧
    (∀ item s, Prog L s (pGetItem X L fuel item s).2) ∧
    (∀ item exc s, Prog L s (pFallback X L fuel item exc s).2) ∧
    (∀ d s, Prog L s (evalDescr X L fuel d s).2) ∧
    (∀ spec m s, Prog L s (fieldTransform X L fuel spec m s).2) ∧
    (∀ f m s, Prog L s (rawLookup X L fuel f m s).2) ∧
    (∀ ds s, Prog L s (resolveDeps X L fuel ds s).2) := by
  intro fuel
  induction fuel with
  | zero =>
      refine ⟨fun item s => ?_, fun item s => ?_, fun item exc s => ?_, fun d s => ?_,
              fun spec m s => ?_, fun f m s => ?_, fun ds s => ?_⟩ <;>
        exact Prog_refl L s
  | succ n ih =>
      obtain ⟨ihGA, ihGI, ihFB, ihED, ihFT, ihRL, ihRD⟩ := ih
      refine ⟨?_, ?_, ?_, ?_, ?_, ?_, ?_⟩
      · intro item s
        cases hg : Table.getCol? s.data item with
        | some c =>
            simp only [pGetAttr, hg]
            exact Prog_refl L s
        | none =>
            simp only [pGetAttr, hg]
            exact ihFB item (.attrError item) s
      · intro item s
        cases hg : Table.getCol? s.data item with
        | some c =>
            simp only [pGetItem, hg]
            exact Prog_refl L s
        | none =>
            simp only [pGetItem, hg]
            exact ihFB item (.keyError item) s
      · intro item exc s
        cases hd : X.descr item with
        | some d =>
            rcases hE : evalDescr X L n d s with ⟨r, s1⟩
            have hp : Prog L s s1 := by
              have := ihED d s
              rw [hE] at this
              exact this
            simp only [pFallback, hd, hE]
            cases r with
            | error e => simpa using hp
            | ok v =>
                cases v with
                | some c => simpa using Prog_setData _ hp
                | none => simpa using Prog_setData _ hp
        | none =>
            cases hr : s.raw with
            | some R =>
                simp only [pFallback, hd, hr, Option.getD_some]
                cases hg : Table.getCol? R item with
                | some c =>
                    simp only [hg]
                    exact Or.inl ⟨by rw [hr], rfl⟩
                | none =>
                    simp only [hg]
                    exact Prog_refl L s
            | none =>
                simp only [pFallback, hd, hr, Option.getD_some]
                cases hg : Table.getCol? L item with
                | some c =>
                    simp only [hg]
                    exact Or.inr ⟨hr, rfl, rfl⟩
                | none =>
                    simp only [hg]
                    exact Or.inr ⟨hr, rfl, rfl⟩
      · intro d s
        cases d with
        | plain spec m =>
            simp only [evalDescr]
            exact ihFT spec m s
        | income spec m =>
            rcases hF : fieldTransform X L n spec m s with ⟨r, s1⟩
            have hp : Prog L s s1 := by
              have := ihFT spec m s
              rw [hF] at this
              exact this
            simp only [evalDescr, hF]
            cases r with
            | error e => simpa using hp
            | ok v => cases v <;> simpa using hp
        | func deps comb =>
            rcases hR : resolveDeps X L n deps s with ⟨r, s1⟩
            have hp : Prog L s s1 := by
              have := ihRD deps s
              rw [hR] at this
              exact this
            simp only [evalDescr, hR]
            cases r with
            | error e => simpa using hp
            | ok vals => simpa using hp
      · intro spec m s
        cases spec with
        | str f =>
            simp only [fieldTransform]
            exact ihRL f m s
        | byYear D =>
            cases hs : select_by_year X.year D with
            | error e =>
                simp only [fieldTransform, hs]
                exact Prog_refl L s
            | ok v =>
                cases v with
                | col f =>
                    simp only [fieldTransform, hs]
                    exact ihRL f m s
                | lit w =>
                    simp only [fieldTransform, hs]
                    exact Prog_refl L s
                | unavailable =>
                    simp only [fieldTransform, hs]
                    exact Prog_refl L s
      · intro f m s
        rcases hG : pGetItem X L n f s with ⟨r, s1⟩
        have hp : Prog L s s1 := by
          have := ihGI f s
          rw [hG] at this
          exact this
        simp only [rawLookup, hG]
        cases r with
        | error e => cases e <;> simpa using hp
        | ok v => cases v <;> simpa using hp
      · intro ds s
        cases ds with
        | nil =>
            simp only [resolveDeps]
            exact Prog_refl L s
        | cons d ds =>
            rcases hG : pGetAttr X L n d s with ⟨r, s1⟩
            have hp : Prog L s s1 := by
              have := ihGA d s
              rw [hG] at this
              exact this
            cases r with
            | error e =>
                simp only [resolveDeps, hG]
                simpa using hp
            | ok v =>
                rcases hR : resolveDeps X L n ds s1 with ⟨r2, s2⟩
                have hp2 : Prog L s1 s2 := by
                  have := ihRD ds s1
                  rw [hR] at this
                  exact this
                simp only [resolveDeps, hG, hR]
                cases r2 with
                | error e => simpa using Prog_trans hp hp2
                | ok vs => simpa using Prog_trans hp hp2

theorem resolveLoop_prog (X : Xformer) (L : Table) (fuel : Nat) :
    ∀ (attrs : List String) (s : Sess) (extra : List (String × Column))
      (s1 : Sess) (ex1 : List (String × Column)),
      resolveLoop X L fuel attrs s extra = .ok (s1, ex1) → Prog L s s1 := by
  intro attrs
  induction attrs with
  | nil =>
      intro s extra s1 ex1 h
      rw [resolveLoop] at h
      injection h with h
      injection h with h1 h2
      rw [← h1]
      exact Prog_refl L s
  | cons attr rest ih =>
      intro s extra s1 ex1 h
      rw [resolveLoop] at h
      by_cases hy : attr = "year"
      · rw [if_pos hy] at h
        exact ih s extra s1 ex1 h
      · rw [if_neg hy] at h
        by_cases hp : (Table.getCol? s.data attr).isSome = true
        · rw [if_pos hp] at h
          exact ih s extra s1 ex1 h
        · rw [if_neg hp] at h
          rcases hG : pGetAttr X L fuel attr s with ⟨r, s2⟩
          rw [hG] at h
          have hprog : Prog L s s2 := by
            have := (prog_all X L fuel).1 attr s
            rw [hG] at this
            exact this
          cases r with
          | error e => cases h
          | ok v =>
              cases v with
              | some col =>
                  simp only [] at h
                  exact Prog_trans hprog (ih s2 (extra ++ [(attr, col)]) s1 ex1 h)
              | none =>
                  simp only [] at h
                  exact Prog_trans hprog (ih s2 extra s1 ex1 h)

/-- C6: within one resolution session the raw-source loader is invoked at
most once, no matter how many of the requested fields fall back to it: the
handle is acquired on the first fallback that needs it (the call counter
then reads one and the handle caches the loader result for the rest of the
session) and a session that never needed the raw source leaves the counter
at zero with no handle. -/
theorem session_loader_once (X : Xformer) (L : Table) (fuel : Nat) (attrs : List String)
    (df : Table) (extra : List (String × Column)) (s1 : Sess) (ex1 : List (String × Column))
    (h : resolveLoop X L fuel attrs ⟨df, none, 0⟩ extra = .ok (s1, ex1)) :
    s1.calls ≤ 1 ∧ (s1.calls = 1 ↔ s1.raw = some L) ∧ (s1.calls = 0 ↔ s1.raw = none) := by
  have hp := resolveLoop_prog X L fuel attrs ⟨df, none, 0⟩ extra s1 ex1 h
  rcases hp with ⟨hr, hc⟩ | ⟨hn, hr, hc⟩
  · have hr2 : s1.raw = none := hr
    have hc2 : s1.calls = 0 := hc
    rw [hr2, hc2]
    refine ⟨by omega, by simp, by simp⟩
  · have hr2 : s1.raw = some L := hr
    have hc2 : s1.calls = 1 := hc
    rw [hr2, hc2]
    refine ⟨by omega, by simp, by simp⟩

/-- C6 witness: a session in which the single requested field falls back to
the raw source: the loader was invoked exactly once and its handle cached. -/
theorem session_loader_once_witness :
    (⟨[("f", [])], some [], 1⟩ : Sess).calls ≤ 1 ∧
    ((⟨[("f", [])], some [], 1⟩ : Sess).calls = 1 ↔
      (⟨[("f", [])], some [], 1⟩ : Sess).raw = some []) ∧
    ((⟨[("f", [])], some [], 1⟩ : Sess).calls = 0 ↔
      (⟨[("f", [])], some [], 1⟩ : Sess).raw = none) :=
  session_loader_once rawMissX [] 9 ["f"] [] [] ⟨[("f", [])], some [], 1⟩ [] (by decide)

/-
Column bookkeeping of the orchestrator.
-/

theorem filter_mem_filter (F : List String) (P : String → Bool) :
    F.filter P = F.filter (fun c => decide (c ∈ F.filter P)) := by
  refine List.filter_congr ?_
  intro c hc
  by_cases hP : P c = true
  · rw [hP]
    symm
    rw [decide_eq_true_eq]
    exact List.mem_filter.mpr ⟨hc, hP⟩
  · rw [Bool.not_eq_true] at hP
    rw [hP]
    symm
    rw [decide_eq_false_iff_not]
    intro hmem
    rw [(List.mem_filter.mp hmem).2] at hP
    cases hP

theorem lc_cols (y : Int) (st : Store) :
    ∀ (attrs : List String) (acc : Table),
      ∃ add, Table.columns (lc_aux y st attrs acc) = Table.columns acc ++ add ∧
        add.Sublist attrs ∧ add.Nodup ∧ ∀ a ∈ add, a ∉ Table.columns acc := by
  intro attrs
  induction attrs with
  | nil =>
      intro acc
      exact ⟨[], by simp [lc_aux], List.nil_sublist _, List.nodup_nil,
        fun a ha => absurd ha (List.not_mem_nil a)⟩
  | cons attr rest ih =>
      intro acc
      by_cases hy : attr = "year"
      · obtain ⟨add, h1, h2, h3, h4⟩ := ih acc
        refine ⟨add, ?_, h2.cons _, h3, h4⟩
        rw [lc_aux, if_pos hy]
        exact h1
      · cases hs : Store.get? st (y, attr) with
        | none =>
            obtain ⟨add, h1, h2, h3, h4⟩ := ih acc
            refine ⟨add, ?_, h2.cons _, h3, h4⟩
            rw [lc_aux, if_neg hy,
                show cacheLoad st y [attr] = .error attr by simp [cacheLoad, hs]]
            exact h1
        | some v =>
            have hstep : lc_aux y st (attr :: rest) acc =
                lc_aux y st rest (Table.setCol acc attr v) := by
              rw [lc_aux, if_neg hy,
                  show cacheLoad st y [attr] = .ok [(attr, v)] by simp [cacheLoad, hs]]
            obtain ⟨add, h1, h2, h3, h4⟩ := ih (Table.setCol acc attr v)
            by_cases hmem : attr ∈ Table.columns acc
            · have hcols : Table.columns (Table.setCol acc attr v) = Table.columns acc := by
                rw [columns_setCol, if_pos hmem]
              refine ⟨add, ?_, h2.cons _, h3, ?_⟩
              · rw [hstep, h1, hcols]
              · intro a ha
                rw [← hcols]
                exact h4 a ha
            · have hcols : Table.columns (Table.setCol acc attr v) =
                  Table.columns acc ++ [attr] := by
                rw [columns_setCol, if_neg hmem]
              have hnotadd : attr ∉ add := by
                intro hin
                exact h4 attr hin (by rw [hcols]; exact List.mem_append.mpr (Or.inr (by simp)))
              refine ⟨attr :: add, ?_, h2.cons₂ attr, List.nodup_cons.mpr ⟨hnotadd, h3⟩, ?_⟩
              · rw [hstep, h1, hcols, List.append_assoc]
                rfl
              · intro a ha
                rcases List.mem_cons.mp ha with rfl | ha
                · exact hmem
                · intro hacc
                  exact h4 a ha (by rw [hcols]; exact List.mem_append.mpr (Or.inl hacc))

theorem resolveLoop_all_present (X : Xformer) (L : Table) (fuel : Nat) :
    ∀ (attrs : List String) (s : Sess) (extra : List (String × Column)),
      (∀ a ∈ attrs, a = "year" ∨ (Table.getCol? s.data a).isSome = true) →
      resolveLoop X L fuel attrs s extra = .ok (s, extra) := by
  intro attrs
  induction attrs with
  | nil => intro s extra _; rfl
  | cons attr rest ih =>
      intro s extra h
      by_cases hy : attr = "year"
      · rw [resolveLoop, if_pos hy]
        exact ih s extra (fun a ha => h a (by simp [ha]))
      · rcases h attr (by simp) with hy2 | hp
        · exact absurd hy2 hy
        · rw [resolveLoop, if_neg hy, if_pos hp]
          exact ih s extra (fun a ha => h a (by simp [ha]))

/-- C9: whenever materialize returns, the columns of the returned table are
exactly the requested field list restricted to the fields that produced a
column, in requested order, whatever order resolution happened in. -/
theorem materialize_order (X : Xformer) (L : Table) (st : Store) (fuel : Nat)
    (out : Table) (st2 : Store) (k : Nat)
    (h : callX X L st fuel = .ok (out, st2, k)) :
    Table.columns out = X.fields.filter (fun c => decide (c ∈ Table.columns out)) := by
  rw [callX] at h
  by_cases hfast : (load_cached X st).length = X.fields.length
  · rw [if_pos hfast] at h
    injection h with h
    have hout : out = load_cached X st := (congrArg (fun t => t.1) h).symm
    obtain ⟨add, hcols, hsub, hnodup, -⟩ := lc_cols X.year st X.fields []
    have hcols2 : Table.columns (load_cached X st) = add := by
      simpa [load_cached, Table.columns] using hcols
    have hmaplen : (Table.columns (load_cached X st)).length = (load_cached X st).length := by
      simp [Table.columns]
    have hlen : add.length = X.fields.length := by
      rw [← hcols2, hmaplen, hfast]
    have hadd : add = X.fields := hsub.eq_of_length hlen
    rw [hout, hcols2, hadd]
    exact (List.filter_eq_self.mpr (fun c hc => by simpa using hc)).symm
  · rw [if_neg hfast] at h
    rcases hloop : resolveLoop X L fuel X.fields ⟨load_cached X st, none, 0⟩ [] with e | p
    · rw [hloop] at h
      cases h
    · obtain ⟨s1, extra⟩ := p
      rw [hloop] at h
      simp only [] at h
      injection h with h
      have hout := (congrArg (fun t => t.1) h).symm
      simp only [] at hout
      rw [hout]
      have hcomp : Table.columns
          ((X.fields.filter (fun c =>
              (Table.getCol? (if "year" ∈ X.fields then
                (⟨Table.setCol s1.data "year"
                    (List.replicate (Table.nrows s1.data) (some X.year)),
                  s1.raw, s1.calls⟩ : Sess)
                else s1).data c).isSome)).map
            (fun c => (c, (Table.getCol? (if "year" ∈ X.fields then
                (⟨Table.setCol s1.data "year"
                    (List.replicate (Table.nrows s1.data) (some X.year)),
                  s1.raw, s1.calls⟩ : Sess)
                else s1).data c).getD []))) =
          X.fields.filter (fun c =>
              (Table.getCol? (if "year" ∈ X.fields then
                (⟨Table.setCol s1.data "year"
                    (List.replicate (Table.nrows s1.data) (some X.year)),
                  s1.raw, s1.calls⟩ : Sess)
                else s1).data c).isSome) := by
        rw [Table.columns, List.map_map]
        exact List.map_id _
      rw [hcomp]
      exact filter_mem_filter _ _

/-- C9 witness: the order theorem applied to a concrete call whose single
requested field is served from the durable cache. -/
theorem materialize_order_witness :
    Table.columns [("a", [some 1])] =
      ["a"].filter (fun c => decide (c ∈ Table.columns [("a", ([some 1] : Column))])) :=
  materialize_order ⟨0, ["a"], fun _ => none⟩ [] [((0, "a"), [some 1])] 9
    [("a", [some 1])] [((0, "a"), [some 1])] 0 (by decide)

/-- C2 counterexample: a transformer with a single generic field declared
unavailable for every year.  materialize raises no error but the returned
table does contain a column named f (holding only missing values), so the
claim that no column for f appears is false on the code: the fallback
stores the python None returned by Field.transform into the working table,
and pandas materializes that assignment as an all-missing column. -/
theorem materialize_unavailable_cex :
    ∃ out st2 k, callX unavailX [] [] 9 = .ok (out, st2, k) ∧
      "f" ∈ Table.columns out := by
  refine ⟨[("f", [])], [], 0, by decide, by decide⟩

/-- C2 amended: for a field f whose raw-mapping descriptor (generic or
income) resolves to unavailable at the year of the transformer, and with no
cached entry for f, materialize of the single field f raises no error and
returns a table whose single column is named f and holds no present value;
the loader is never invoked.  For a generic field the column is not
persisted; for an income field the all-missing column is written to the
cache, hence the existential store. -/
theorem materialize_unavailable_amended (X : Xformer) (L : Table) (st : Store)
    (fuel : Nat) (f : String) (D : List (YearKey × Outcome)) (m : Option Int) (d : Descr)
    (hfl : X.fields = [f])
    (hdx : X.descr f = some d)
    (hd : d = Descr.plain (.byYear D) m ∨ d = Descr.income (.byYear D) m)
    (hy : select_by_year X.year D = .ok .unavailable)
    (hm : Store.get? st (X.year, f) = none)
    (hf : f ≠ "year") :
    ∃ st2, callX X L st (fuel + 5) = .ok ([(f, [])], st2, 0) := by
  have hfuel : fuel + 5 = (fuel + 4) + 1 := rfl
  have h4 : fuel + 4 = (fuel + 3) + 1 := rfl
  have h3 : fuel + 3 = (fuel + 2) + 1 := rfl
  have h2 : fuel + 2 = (fuel + 1) + 1 := rfl
  have hlc : load_cached X st = [] := by
    rw [load_cached, hfl, lc_aux, if_neg hf,
        show cacheLoad st X.year [f] = .error f by simp [cacheLoad, hm]]
    rfl
  have hgc : Table.getCol? ([] : Table) f = none := rfl
  have e1 : fieldTransform X L (fuel + 2) (FieldSpec.byYear D) m ⟨[], none, 0⟩ =
      (.ok none, ⟨[], none, 0⟩) := by
    rw [h2]
    simp only [fieldTransform, hy]
  rcases hd with rfl | rfl
  · have e2 : evalDescr X L (fuel + 3) (Descr.plain (FieldSpec.byYear D) m) ⟨[], none, 0⟩ =
        (.ok none, ⟨[], none, 0⟩) := by
      rw [h3]
      simp only [evalDescr]
      exact e1
    have e3 : pFallback X L (fuel + 4) f (.attrError f) ⟨[], none, 0⟩ =
        (.ok none, ⟨[(f, [])], none, 0⟩) := by
      rw [h4]
      simp only [pFallback, hdx, e2]
      rfl
    have e4 : pGetAttr X L (fuel + 5) f ⟨[], none, 0⟩ =
        (.ok none, ⟨[(f, [])], none, 0⟩) := by
      rw [hfuel]
      simp only [pGetAttr, hgc]
      exact e3
    have e5 : resolveLoop X L (fuel + 5) [f] ⟨[], none, 0⟩ [] =
        .ok (⟨[(f, [])], none, 0⟩, []) := by
      rw [resolveLoop, if_neg hf]
      simp only [hgc, Option.isSome_none, Bool.false_eq_true, if_false, e4]
      rfl
    refine ⟨st, ?_⟩
    rw [callX, hlc, hfl]
    rw [if_neg (by simp)]
    rw [e5]
    simp [Ne.symm hf, Table.getCol?]
  · have e2 : evalDescr X L (fuel + 3) (Descr.income (FieldSpec.byYear D) m) ⟨[], none, 0⟩ =
        (.ok (some []), ⟨[], none, 0⟩) := by
      rw [h3]
      simp only [evalDescr, e1]
      rfl
    have e3 : pFallback X L (fuel + 4) f (.attrError f) ⟨[], none, 0⟩ =
        (.ok (some []), ⟨[(f, [])], none, 0⟩) := by
      rw [h4]
      simp only [pFallback, hdx, e2]
      rfl
    have e4 : pGetAttr X L (fuel + 5) f ⟨[], none, 0⟩ =
        (.ok (some []), ⟨[(f, [])], none, 0⟩) := by
      rw [hfuel]
      simp only [pGetAttr, hgc]
      exact e3
    have e5 : resolveLoop X L (fuel + 5) [f] ⟨[], none, 0⟩ [] =
        .ok (⟨[(f, [])], none, 0⟩, [(f, [])]) := by
      rw [resolveLoop, if_neg hf]
      simp only [hgc, Option.isSome_none, Bool.false_eq_true, if_false, e4]
      rfl
    refine ⟨cacheSave st X.year [(f, [])], ?_⟩
    rw [callX, hlc, hfl]
    rw [if_neg (by simp)]
    rw [e5]
    simp [Ne.symm hf, Table.getCol?]

/-- C2 amended witness: the amended theorem applied to a concrete generic
field that is declared unavailable for every year, with an empty cache. -/
theorem materialize_unavailable_amended_witness :
    ∃ st2, callX unavailX [] [] (4 + 5) = .ok ([("f", [])], st2, 0) :=
  materialize_unavailable_amended unavailX [] [] 4 "f"
    [(.range none none, .unavailable)] (some (-1))
    (Descr.plain (.byYear [(.range none none, .unavailable)]) (some (-1)))
    rfl rfl (Or.inl rfl) (by decide) (by decide) (by decide)

/-
Lemmas about whole materialize calls, toward the idempotence claim.
-/

theorem callX_calls_le_one (X : Xformer) (L : Table) (st : Store) (fuel : Nat)
    (out : Table) (st2 : Store) (k : Nat)
    (h : callX X L st fuel = .ok (out, st2, k)) : k ≤ 1 := by
  rw [callX] at h
  by_cases hfast : (load_cached X st).length = X.fields.length
  · rw [if_pos hfast] at h
    injection h with h
    have hk : (0 : Nat) = k := congrArg (fun t => t.2.2) h
    omega
  · rw [if_neg hfast] at h
    rcases hloop : resolveLoop X L fuel X.fields ⟨load_cached X st, none, 0⟩ [] with e | p
    · rw [hloop] at h
      cases h
    · obtain ⟨s1, extra⟩ := p
      rw [hloop] at h
      simp only [] at h
      injection h with h
      have hcalls1 : s1.calls ≤ 1 := by
        have hp := resolveLoop_prog X L fuel X.fields ⟨load_cached X st, none, 0⟩ [] s1 extra hloop
        rcases hp with ⟨-, hc⟩ | ⟨-, -, hc⟩
        · have hc2 : s1.calls = 0 := hc
          omega
        · have hc2 : s1.calls = 1 := hc
          omega
      by_cases hyr : "year" ∈ X.fields
      · rw [if_pos hyr] at h
        have hk : s1.calls = k := congrArg (fun t => t.2.2) h
        omega
      · rw [if_neg hyr] at h
        have hk : s1.calls = k := congrArg (fun t => t.2.2) h
        omega

theorem load_cached_getCol? (X : Xformer) (st : Store) (a : String) :
    Table.getCol? (load_cached X st) a =
      if a ∈ X.fields ∧ a ≠ "year" ∧ (Store.get? st (X.year, a)).isSome = true
      then Store.get? st (X.year, a) else none := by
  rw [load_cached, lc_aux_getCol?]
  rfl

theorem load_cached_eq_map (X : Xformer) (st : Store)
    (hfast : (load_cached X st).length = X.fields.length) :
    Table.columns (load_cached X st) = X.fields ∧
    load_cached X st =
      X.fields.map (fun f => (f, (Table.getCol? (load_cached X st) f).getD [])) := by
  obtain ⟨add, hcols, hsub, hnodup, -⟩ := lc_cols X.year st X.fields []
  have hcols2 : Table.columns (load_cached X st) = add := by
    simpa [load_cached, Table.columns] using hcols
  have hmaplen : (Table.columns (load_cached X st)).length = (load_cached X st).length := by
    simp [Table.columns]
  have hlen : add.length = X.fields.length := by
    rw [← hcols2, hmaplen, hfast]
  have hadd : add = X.fields := hsub.eq_of_length hlen
  have hcf : Table.columns (load_cached X st) = X.fields := by rw [hcols2, hadd]
  refine ⟨hcf, ?_⟩
  have hshape := table_eq_map_of_nodup (load_cached X st) (by rw [hcf]; rw [← hadd] at hsub ⊢; exact hnodup)
  rw [hcf] at hshape
  exact hshape

theorem callX_all_cached (X : Xformer) (L : Table) (st : Store) (fuel : Nat)
    (hy : "year" ∉ X.fields)
    (hc : ∀ f ∈ X.fields, (Store.get? st (X.year, f)).isSome = true) :
    callX X L st fuel =
      .ok (X.fields.map (fun f => (f, (Store.get? st (X.year, f)).getD [])), st, 0) := by
  have hne : ∀ a ∈ X.fields, a ≠ "year" := fun a ha h => hy (h ▸ ha)
  have hdf : ∀ a ∈ X.fields, Table.getCol? (load_cached X st) a = Store.get? st (X.year, a) := by
    intro a ha
    rw [load_cached_getCol?, if_pos ⟨ha, hne a ha, hc a ha⟩]
  have hdfsome : ∀ a ∈ X.fields, (Table.getCol? (load_cached X st) a).isSome = true := by
    intro a ha
    rw [hdf a ha]
    exact hc a ha
  rw [callX]
  by_cases hfast : (load_cached X st).length = X.fields.length
  · rw [if_pos hfast]
    obtain ⟨-, hshape⟩ := load_cached_eq_map X st hfast
    have hmap : load_cached X st =
        X.fields.map (fun f => (f, (Store.get? st (X.year, f)).getD [])) := by
      rw [hshape]
      exact List.map_congr_left (fun a ha => by rw [hdf a ha])
    rw [hmap]
  · rw [if_neg hfast]
    rw [resolveLoop_all_present X L fuel X.fields ⟨load_cached X st, none, 0⟩ []
        (fun a ha => Or.inr (hdfsome a ha))]
    simp only [if_neg hy, List.isEmpty_nil, if_pos rfl]
    have hfilter : X.fields.filter
        (fun c => (Table.getCol? (load_cached X st) c).isSome) = X.fields :=
      List.filter_eq_self.mpr (fun a ha => hdfsome a ha)
    rw [hfilter]
    have hmap : X.fields.map (fun c => (c, (Table.getCol? (load_cached X st) c).getD [])) =
        X.fields.map (fun f => (f, (Store.get? st (X.year, f)).getD [])) :=
      List.map_congr_left (fun a ha => by rw [hdf a ha])
    rw [hmap]
    simp

theorem callX_ok_shape (X : Xformer) (L : Table) (st : Store) (fuel : Nat)
    (out : Table) (st2 : Store) (k : Nat)
    (h : callX X L st fuel = .ok (out, st2, k))
    (hall : ∀ f ∈ X.fields, (Table.getCol? out f).isSome = true) :
    out = X.fields.map (fun f => (f, (Table.getCol? out f).getD [])) := by
  rw [callX] at h
  by_cases hfast : (load_cached X st).length = X.fields.length
  · rw [if_pos hfast] at h
    injection h with h
    have hout : out = load_cached X st := (congrArg (fun t => t.1) h).symm
    obtain ⟨-, hshape⟩ := load_cached_eq_map X st hfast
    rw [hout]
    exact hshape
  · rw [if_neg hfast] at h
    rcases hloop : resolveLoop X L fuel X.fields ⟨load_cached X st, none, 0⟩ [] with e | p
    · rw [hloop] at h
      cases h
    · obtain ⟨s1, extra⟩ := p
      rw [hloop] at h
      simp only [] at h
      injection h with h
      have hout := (congrArg (fun t => t.1) h).symm
      simp only [] at hout
      set s2d := (if "year" ∈ X.fields then
          (⟨Table.setCol s1.data "year"
              (List.replicate (Table.nrows s1.data) (some X.year)),
            s1.raw, s1.calls⟩ : Sess)
          else s1).data with hs2d
      have hout2 : out = (X.fields.filter (fun c => (Table.getCol? s2d c).isSome)).map
          (fun c => (c, (Table.getCol? s2d c).getD [])) := hout
      have hP : ∀ f ∈ X.fields, (Table.getCol? s2d f).isSome = true := by
        intro f hf
        have := hall f hf
        rw [hout2] at this
        rw [getCol?_of_map] at this
        by_cases hmem : f ∈ X.fields.filter (fun c => (Table.getCol? s2d c).isSome)
        · exact (List.mem_filter.mp hmem).2
        · rw [if_neg hmem] at this
          cases this
      have hfilter : X.fields.filter (fun c => (Table.getCol? s2d c).isSome) = X.fields :=
        List.filter_eq_self.mpr hP
      rw [hfilter] at hout2
      have hvals : ∀ f ∈ X.fields, Table.getCol? out f = some ((Table.getCol? s2d f).getD []) := by
        intro f hf
        rw [hout2, getCol?_of_map, if_pos hf]
      conv_lhs => rw [hout2]
      refine List.map_congr_left ?_
      intro f hf
      rw [hvals f hf]
      rfl

/-- C3 counterexample: a transformer whose single generic field maps to the
raw column V1 that the raw source lacks.  Each of the two successive
materialize calls loads the raw source (the field produces an all-missing
column that is never cached), so the loader is invoked twice across the two
calls, refuting the claimed bound of at most one invocation; the two
outputs are nevertheless identical. -/
theorem materialize_idempotent_cex :
    twoCalls rawMissX [] [] 9 = .ok ([("f", [])], [("f", [])], 2) := by decide

/-- C3 amended: over two successive materialize calls the outputs agree and
the loader is not re-invoked only under the fast-path condition; in general
each call invokes the loader at most once, so across both calls it is
invoked at most twice (and two invocations do occur, see the
counterexample).  Concretely: when the year pseudo-field is not requested
and after the first call every requested field is durably cached with
exactly the column the first output holds, the second call returns the
first output unchanged, leaves the store unchanged and invokes the loader
zero times. -/
theorem materialize_idempotent_amended (X : Xformer) (L : Table) (st : Store) (fuel : Nat)
    (o1 : Table) (st1 : Store) (k1 : Nat) (o2 : Table) (st2 : Store) (k2 : Nat)
    (h1 : callX X L st fuel = .ok (o1, st1, k1))
    (h2 : callX X L st1 fuel = .ok (o2, st2, k2)) :
    k1 ≤ 1 ∧ k2 ≤ 1 ∧
    ("year" ∉ X.fields →
     (∀ f ∈ X.fields, Store.get? st1 (X.year, f) = Table.getCol? o1 f ∧
        (Table.getCol? o1 f).isSome = true) →
     o2 = o1 ∧ st2 = st1 ∧ k2 = 0) := by
  refine ⟨callX_calls_le_one X L st fuel o1 st1 k1 h1,
          callX_calls_le_one X L st1 fuel o2 st2 k2 h2, ?_⟩
  intro hy hcache
  have hsome : ∀ f ∈ X.fields, (Store.get? st1 (X.year, f)).isSome = true := by
    intro f hf
    rw [(hcache f hf).1]
    exact (hcache f hf).2
  have hcc := callX_all_cached X L st1 fuel hy hsome
  rw [h2] at hcc
  injection hcc with hcc
  have ho2 : o2 = X.fields.map (fun f => (f, (Store.get? st1 (X.year, f)).getD [])) :=
    congrArg (fun t => t.1) hcc
  have hst : st2 = st1 := congrArg (fun t => t.2.1) hcc
  have hk : k2 = 0 := congrArg (fun t => t.2.2) hcc
  have ho1 : o1 = X.fields.map (fun f => (f, (Table.getCol? o1 f).getD [])) :=
    callX_ok_shape X L st fuel o1 st1 k1 h1 (fun f hf => (hcache f hf).2)
  have hmaps : X.fields.map (fun f => (f, (Store.get? st1 (X.year, f)).getD [])) =
      X.fields.map (fun f => (f, (Table.getCol? o1 f).getD [])) :=
    List.map_congr_left (fun f hf => by rw [(hcache f hf).1])
  exact ⟨by rw [ho2, hmaps, ← ho1], hst, hk⟩

/-- C3 amended witness: the amended theorem applied to two concrete calls
whose single requested field is already durably cached before the first. -/
theorem materialize_idempotent_amended_witness :
    (0 : Nat) ≤ 1 ∧ (0 : Nat) ≤ 1 ∧
    ("year" ∉ (⟨0, ["a"], fun _ => none⟩ : Xformer).fields →
     (∀ f ∈ (⟨0, ["a"], fun _ => none⟩ : Xformer).fields,
        Store.get? [((0, "a"), [some 1])] ((⟨0, ["a"], fun _ => none⟩ : Xformer).year, f) =
          Table.getCol? [("a", [some 1])] f ∧
        (Table.getCol? [("a", [some 1])] f).isSome = true) →
     [("a", [some 1])] = [("a", ([some 1] : Column))] ∧
       ([((0, "a"), [some 1])] : Store) = ([((0, "a"), [some 1])] : Store) ∧ (0 : Nat) = 0) :=
  materialize_idempotent_amended ⟨0, ["a"], fun _ => none⟩ [] [((0, "a"), [some 1])] 9
    [("a", [some 1])] [((0, "a"), [some 1])] 0
    [("a", [some 1])] [((0, "a"), [some 1])] 0 (by decide) (by decide)

end Pnad
